import Mathlib

/-!
Shallow embedding of the aidenwallis/go-ratelimiting repository.

The namespace Redis models the redis package: the leaky-bucket and
sliding-window Lua scripts (executed atomically by the store, so modelled as
pure state transformers), the reply parsers, and the Use wrappers that
compose script execution, parsing and derived-field computation.

The namespace Loc models the local package: the mutex-guarded in-memory
leaky bucket and sliding window. The mutex serializes calls, so each public
operation is modelled as a pure function from (state, current time) to
(new state, result). Go runtime panics (integer division by zero, indexing
an empty slice) are modelled as Option.none.

Numeric conventions: Go int / int64 / time.Duration (nanoseconds) /
unix-second timestamps are all modelled as Int; Go integer division
truncates toward zero, which is Int.tdiv. Go float64 arithmetic
(getRefillRate, math.Floor / math.Ceil in the Lua script and in
calculateLeakyBucketFillTime, math.Min in unsafeFill) is modelled as exact
rational arithmetic over Rat.
-/

/-- Decidable equality for Except results, used to evaluate parser and
limiter outcomes on concrete inputs. -/
instance {ε α : Type _} [DecidableEq ε] [DecidableEq α] : DecidableEq (Except ε α)
  | .error e, .error f =>
    if h : e = f then .isTrue (by rw [h]) else .isFalse (by simp [h])
  | .error _, .ok _ => .isFalse (by simp)
  | .ok _, .error _ => .isFalse (by simp)
  | .ok a, .ok b =>
    if h : a = b then .isTrue (by rw [h]) else .isFalse (by simp [h])

namespace Redis

/-- Dynamic value returned by a Redis adapter, modelling the Go empty
interface values that the parsers inspect with type assertions. -/
inductive RedisValue where
  | int (i : Int)
  | float (q : ℚ)
  | str (s : String)
  | list (l : List RedisValue)

/-- Parse failure, modelling the three shapes of error message produced by
the Go parsers: wrong top-level type, wrong element count, and wrong element
type at a given index. -/
inductive ParseErr where
  | wrongType
  | wrongLength (expected got : Nat)
  | wrongElemType (index : Nat)
deriving DecidableEq

/-- Element loop shared by the parsers: convert every element to int64,
failing at the first element of another type, tracking the index. -/
def int64Elems : Nat → List RedisValue → Except ParseErr (List Int)
  | _, [] => .ok []
  | i, .int v :: rest =>
    match int64Elems (i + 1) rest with
    | .error e => .error e
    | .ok l => .ok (v :: l)
  | i, _ :: _ => .error (.wrongElemType i)

/-- Model of parseRedisInt64Slice: require a list, then convert every
element to int64. -/
def parseRedisInt64Slice (v : RedisValue) : Except ParseErr (List Int) :=
  match v with
  | .list args => int64Elems 0 args
  | _ => .error .wrongType

/-- Output of parseLeakyBucketResponse, mirroring the Go struct
leakyBucketOutput. -/
structure leakyBucketOutput where
  success : Bool
  remaining : Int
  lastFilled : Int
deriving DecidableEq

/-- Model of parseLeakyBucketResponse: require a list, then exactly 3
elements, then all elements int64. The getD accesses are guarded by the
length test, mirroring the in-bounds Go slice indexing. -/
def parseLeakyBucketResponse (v : RedisValue) : Except ParseErr leakyBucketOutput :=
  match v with
  | .list args =>
    if args.length = 3 then
      match int64Elems 0 args with
      | .error e => .error e
      | .ok ints => .ok ⟨ints.getD 0 0 == 1, ints.getD 1 0, ints.getD 2 0⟩
    else .error (.wrongLength 3 args.length)
  | _ => .error .wrongType

/-- Output of parseSlidingWindowResponse, mirroring the Go struct
slidingWindowOutput. -/
structure slidingWindowOutput where
  success : Bool
  tokens : Int
deriving DecidableEq

/-- Model of parseSlidingWindowResponse: parseRedisInt64Slice first, then
require exactly 2 elements. -/
def parseSlidingWindowResponse (v : RedisValue) : Except ParseErr slidingWindowOutput :=
  match parseRedisInt64Slice v with
  | .error e => .error e
  | .ok ints =>
    if ints.length = 2 then .ok ⟨ints.getD 0 0 == 1, ints.getD 1 0⟩
    else .error (.wrongLength 2 ints.length)

/-- Model of getRefillRate: float64 division modelled as exact rational
division. -/
def getRefillRate (maxCapacity windowSeconds : Int) : ℚ :=
  (maxCapacity : ℚ) / (windowSeconds : ℚ)

/-- Refill block of the leaky-bucket Lua script: when the bucket is not
full, fill by floor of elapsed time times rate, but only when that amount is
positive; otherwise tokens and last-fill are untouched. -/
def leakyBucketRefill (capacity : Int) (rate : ℚ) (now tokens lastFilled : Int) : Int × Int :=
  if tokens < capacity then
    let tokensToFill := ⌊((now - lastFilled : Int) : ℚ) * rate⌋
    if 0 < tokensToFill then (min capacity (tokens + tokensToFill), now)
    else (tokens, lastFilled)
  else (tokens, lastFilled)

/-- Stored redis state of one leaky bucket: the tokens key and the
last-fill key, each absent (none) or holding an integer. -/
structure LeakyBucketState where
  tokens : Option Int
  lastFill : Option Int
deriving DecidableEq

/-- The whole leaky-bucket Lua script: load with default 0, clamp down to
capacity, refill, then take all-or-nothing; returns the stored state and
the reply triple success, tokens, lastFilled. -/
def leakyBucketScript (st : LeakyBucketState) (capacity : Int) (rate : ℚ) (now take : Int) :
    LeakyBucketState × (Int × Int × Int) :=
  let tokens0 := st.tokens.getD 0
  let tokens1 := if capacity < tokens0 then capacity else tokens0
  let lastFilled0 := st.lastFill.getD 0
  let p := leakyBucketRefill capacity rate now tokens1 lastFilled0
  let q := if take ≤ p.1 then ((1 : Int), p.1 - take) else ((0 : Int), p.1)
  (⟨some q.2, some p.2⟩, (q.1, q.2, p.2))

/-- Token and last-fill values after the load, clamp and refill stages of
the script, before the take stage. -/
def leakyBucketPostRefill (st : LeakyBucketState) (capacity : Int) (rate : ℚ) (now : Int) :
    Int × Int :=
  let tokens0 := st.tokens.getD 0
  leakyBucketRefill capacity rate now (if capacity < tokens0 then capacity else tokens0)
    (st.lastFill.getD 0)

/-- Model of calculateLeakyBucketFillTime: the derived reset time, in unix
seconds rather than a time.Time value. -/
def calculateLeakyBucketFillTime (lastFillUnix currentTokens maxCapacity windowSeconds : Int) :
    Int :=
  let delta := maxCapacity - currentTokens
  if 0 < delta then
    let rate := getRefillRate maxCapacity windowSeconds
    let calculatedSeconds := ⌈(delta : ℚ) / rate⌉
    let secondsTillRefill := if calculatedSeconds < windowSeconds then calculatedSeconds
      else windowSeconds
    lastFillUnix + secondsTillRefill
  else lastFillUnix

/-- Response struct of LeakyBucketImpl.Use, with ResetAt as unix seconds. -/
structure UseLeakyBucketResponse where
  Success : Bool
  RemainingTokens : Int
  ResetAt : Int
deriving DecidableEq

/-- Model of LeakyBucketImpl.Use: run the script, encode its reply as the
adapter does (a list of three int64 values), parse it back, and derive the
response. The state argument stands for the two redis keys of the bucket. -/
def LeakyBucketImpl.Use (st : LeakyBucketState) (capacity windowSeconds now take : Int) :
    LeakyBucketState × Except ParseErr UseLeakyBucketResponse :=
  let rate := getRefillRate capacity windowSeconds
  let r := leakyBucketScript st capacity rate now take
  match parseLeakyBucketResponse (.list [.int r.2.1, .int r.2.2.1, .int r.2.2.2]) with
  | .error e => (r.1, .error e)
  | .ok out => (r.1, .ok ⟨out.success, out.remaining,
      calculateLeakyBucketFillTime out.lastFilled out.remaining capacity windowSeconds⟩)

/-- State reached after a sequence of Use calls, each given as a pair of
now-timestamp and take amount, starting from a given stored state. -/
def LeakyBucketImpl.useAll (capacity windowSeconds : Int) :
    List (Int × Int) → LeakyBucketState → LeakyBucketState
  | [], st => st
  | c :: rest, st =>
    LeakyBucketImpl.useAll capacity windowSeconds rest
      (LeakyBucketImpl.Use st capacity windowSeconds c.1 c.2).1

/-- Body of the sliding-window Use Lua script: evict every member whose
score is at most now, count survivors, and admit one entry keyed by its
expiry when below capacity. The zset is modelled as a finite set of scores,
since the script uses the expiry value as both member and score. -/
def SlidingWindowImpl.UseScript (store : Finset Int) (now expiresAt maxCapacity : Int) :
    Finset Int × (Int × Int) :=
  let store2 := store.filter (fun s => now < s)
  let tokens := (store2.card : Int)
  if tokens < maxCapacity then (insert expiresAt store2, (1, tokens + 1))
  else (store2, (0, tokens))

/-- Response struct of SlidingWindowImpl.Use. -/
structure UseSlidingWindowResponse where
  Success : Bool
  RemainingCapacity : Int
deriving DecidableEq

/-- Model of SlidingWindowImpl.Use: compute the expiry as now plus the
window (nanosecond resolution), run the script, encode and parse the reply,
and clamp the remaining capacity at zero. -/
def SlidingWindowImpl.Use (store : Finset Int) (maxCapacity window now : Int) :
    Finset Int × Except ParseErr UseSlidingWindowResponse :=
  let expiresAt := now + window
  let r := SlidingWindowImpl.UseScript store now expiresAt maxCapacity
  match parseSlidingWindowResponse (.list [.int r.2.1, .int r.2.2]) with
  | .error e => (r.1, .error e)
  | .ok out => (r.1, .ok ⟨out.success, max 0 (maxCapacity - out.tokens)⟩)

end Redis

namespace Loc

/-- In-memory leaky bucket state, mirroring the Go struct leakyBucket:
maximum size, current tokens, token rate (a duration in nanoseconds) and
the last fill timestamp (nanoseconds). -/
structure leakyBucket where
  max : Int
  tokens : Int
  rate : Int
  lastFill : Int
deriving DecidableEq

/-- Model of NewLeakyBucket: the bucket starts with tokens equal to
tokensPerWindow and rate equal to the window divided by tokensPerWindow
(truncated integer division on durations). Division by zero is a Go runtime
panic, modelled as none. The now argument stands for time.Now(). -/
def NewLeakyBucket (tokensPerWindow window now : Int) : Option leakyBucket :=
  if tokensPerWindow = 0 then none
  else some { max := tokensPerWindow, tokens := tokensPerWindow,
              rate := window.tdiv tokensPerWindow, lastFill := now }

/-- Model of leakyBucket.unsafeFill: return unchanged when full; otherwise
add elapsed-time-divided-by-rate tokens capped at max, and always reset
lastFill to now. Division by a zero rate is a Go runtime panic, modelled as
none. The float64 math.Min is modelled as min on Int. -/
def leakyBucket.unsafeFill (r : leakyBucket) (now : Int) : Option leakyBucket :=
  if r.max ≤ r.tokens then some r
  else if r.rate = 0 then none
  else
    let tokensToFill := (now - r.lastFill).tdiv r.rate
    some { r with tokens := min (r.tokens + tokensToFill) r.max, lastFill := now }

/-- Model of leakyBucket.TryTakeWithDuration: fill, then take one token if
at least one is available, else report the time until the next fill
instant. -/
def leakyBucket.TryTakeWithDuration (r : leakyBucket) (now : Int) :
    Option (leakyBucket × Bool × Int) :=
  match r.unsafeFill now with
  | none => none
  | some r2 =>
    if r2.tokens < 1 then some (r2, false, (r2.lastFill + r2.rate) - now)
    else some ({ r2 with tokens := r2.tokens - 1 }, true, 0)

/-- Model of leakyBucket.TryTake: TryTakeWithDuration with the duration
discarded. -/
def leakyBucket.TryTake (r : leakyBucket) (now : Int) : Option (leakyBucket × Bool) :=
  (r.TryTakeWithDuration now).map (fun x => (x.1, x.2.1))

/-- Model of leakyBucket.Size: fill, then report the token count. -/
def leakyBucket.Size (r : leakyBucket) (now : Int) : Option (leakyBucket × Int) :=
  (r.unsafeFill now).map (fun r2 => (r2, r2.tokens))

/-- Repeated TryTake at one fixed instant, reporting whether every take in
the run succeeded. -/
def leakyBucket.tryTakeAll (now : Int) : Nat → leakyBucket → Option (leakyBucket × Bool)
  | 0, r => some (r, true)
  | Nat.succ k, r =>
    match r.TryTake now with
    | none => none
    | some (r2, ok) => (leakyBucket.tryTakeAll now k r2).map (fun x => (x.1, ok && x.2))

/-- State reached by a sequence of TryTake calls at the given instants. -/
def leakyBucket.takeSeq : List Int → leakyBucket → Option leakyBucket
  | [], r => some r
  | now :: rest, r =>
    match r.TryTake now with
    | none => none
    | some (r2, _) => leakyBucket.takeSeq rest r2

/-- Constructor validation errors of the local sliding window. -/
inductive LocalErr where
  | ErrCapacity
  | ErrDuration
deriving DecidableEq

/-- In-memory sliding window state, mirroring the Go struct slidingWindow:
capacity, entry lifetime, and the slice of expiry timestamps. -/
structure slidingWindow where
  capacity : Int
  duration : Int
  window : List Int
deriving DecidableEq

/-- Model of NewSlidingWindow: reject a non-positive capacity, then a
non-positive duration, before any state is created; otherwise start with an
empty window. -/
def NewSlidingWindow (capacity duration : Int) : Except LocalErr slidingWindow :=
  if capacity ≤ 0 then .error .ErrCapacity
  else if duration ≤ 0 then .error .ErrDuration
  else .ok { capacity := capacity, duration := duration, window := [] }

/-- Model of slidingWindow.clean: drop the longest leading run of entries
whose timestamp is not after now. The Go loop breaks at the first
unexpired entry, so this is dropWhile, not filter. -/
def slidingWindow.clean (r : slidingWindow) (now : Int) : slidingWindow :=
  { r with window := r.window.dropWhile (fun ts => decide (ts ≤ now)) }

/-- Model of slidingWindow.TryTakeWithDuration: clean, then reject when the
window is at capacity (reporting the earliest expiry; indexing an empty
slice is a Go panic, modelled as none), else append an entry expiring at
now plus the duration. -/
def slidingWindow.TryTakeWithDuration (r : slidingWindow) (now : Int) :
    Option (slidingWindow × Bool × Int) :=
  let r2 := r.clean now
  if r2.capacity ≤ (r2.window.length : Int) then
    r2.window.head?.map (fun h => (r2, false, h - now))
  else some ({ r2 with window := r2.window ++ [now + r2.duration] }, true, 0)

/-- Model of slidingWindow.TryTake: TryTakeWithDuration with the duration
discarded. -/
def slidingWindow.TryTake (r : slidingWindow) (now : Int) : Option (slidingWindow × Bool) :=
  (r.TryTakeWithDuration now).map (fun x => (x.1, x.2.1))

/-- Model of the shared wait retry loop of both local limiters. The
argument s gives the success of the i-th TryTakeWithDuration attempt and c
tells whether the context-cancellation branch of awaitNextToken fires at
the i-th failed attempt. Fuel bounds the unrolling of the unbounded Go
loop; none means the loop is still running. -/
def wait (s c : Nat → Bool) : Nat → Nat → Option Bool
  | 0, _ => none
  | Nat.succ fuel, i =>
    if s i then some true
    else if c i then some false
    else wait s c fuel (i + 1)

/-- Model of WaitFunc: the spawned goroutine runs wait and invokes the
callback exactly when it returns true. -/
def WaitFunc.callbackRan (s c : Nat → Bool) (fuel : Nat) : Bool :=
  match wait s c fuel 0 with
  | some true => true
  | _ => false

end Loc

namespace Redis

/-- The element loop succeeds exactly when every element is an int64. -/
theorem int64Elems_ok_iff (l : List RedisValue) (i : Nat) :
    (∃ out, int64Elems i l = .ok out) ↔ ∀ x ∈ l, ∃ j, x = RedisValue.int j := by
  induction l generalizing i with
  | nil => simp [int64Elems]
  | cons x rest ih =>
    cases x with
    | int v =>
      have hrec := ih (i + 1)
      simp only [int64Elems]
      rcases h : int64Elems (i + 1) rest with e | l2
      · constructor
        · rintro ⟨out, hout⟩; cases hout
        · intro hall
          exfalso
          rcases hrec.mpr (fun y hy => hall y (List.mem_cons_of_mem _ hy)) with ⟨out2, hout2⟩
          rw [h] at hout2
          cases hout2
      · constructor
        · rintro -
          intro y hy
          rcases List.mem_cons.mp hy with rfl | hy2
          · exact ⟨v, rfl⟩
          · exact hrec.mp ⟨l2, h⟩ y hy2
        · rintro -
          exact ⟨v :: l2, rfl⟩
    | float q => simp [int64Elems]
    | str s => simp [int64Elems]
    | list l2 => simp [int64Elems]

/-- A successful element loop preserves the element count. -/
theorem int64Elems_length (l : List RedisValue) (i : Nat) (out : List Int)
    (h : int64Elems i l = .ok out) : out.length = l.length := by
  induction l generalizing i out with
  | nil => simp [int64Elems] at h; simp [← h]
  | cons x rest ih =>
    cases x with
    | int v =>
      simp only [int64Elems] at h
      rcases h2 : int64Elems (i + 1) rest with e | l2
      · rw [h2] at h; cases h
      · rw [h2] at h
        cases h
        simp [ih _ _ h2]
    | float q => simp [int64Elems] at h
    | str s => simp [int64Elems] at h
    | list l2 => simp [int64Elems] at h

end Redis

/-- C6. The leaky-bucket reply parser and the sliding-window reply parser
succeed exactly on a list value with the expected element count (3 for the
leaky bucket, 2 for the sliding window) whose elements are all 64-bit
integers; on any other value they return an error and no output. -/
theorem c6_parsers_accept_exactly_wellformed_replies (v : Redis.RedisValue) :
    ((∃ out, Redis.parseLeakyBucketResponse v = .ok out) ↔
      ∃ l, v = .list l ∧ l.length = 3 ∧ ∀ x ∈ l, ∃ j, x = Redis.RedisValue.int j) ∧
    ((∃ out, Redis.parseSlidingWindowResponse v = .ok out) ↔
      ∃ l, v = .list l ∧ l.length = 2 ∧ ∀ x ∈ l, ∃ j, x = Redis.RedisValue.int j) := by
  constructor
  · cases v with
    | int i => simp [Redis.parseLeakyBucketResponse]
    | float q => simp [Redis.parseLeakyBucketResponse]
    | str s => simp [Redis.parseLeakyBucketResponse]
    | list l =>
      simp only [Redis.parseLeakyBucketResponse]
      by_cases hlen : l.length = 3
      · rw [if_pos hlen]
        constructor
        · rintro ⟨out, hout⟩
          refine ⟨l, rfl, hlen, ?_⟩
          rcases h : Redis.int64Elems 0 l with e | ints
          · rw [h] at hout; cases hout
          · exact (Redis.int64Elems_ok_iff l 0).mp ⟨ints, h⟩
        · rintro ⟨l2, hl2, -, hall⟩
          cases hl2
          rcases (Redis.int64Elems_ok_iff l 0).mpr hall with ⟨ints, hints⟩
          exact ⟨_, by rw [hints]⟩
      · rw [if_neg hlen]
        simp only [reduceCtorEq, exists_false, false_iff, not_exists]
        rintro l2 ⟨hl2, h3, -⟩
        cases hl2
        exact hlen h3
  · cases v with
    | int i => simp [Redis.parseSlidingWindowResponse, Redis.parseRedisInt64Slice]
    | float q => simp [Redis.parseSlidingWindowResponse, Redis.parseRedisInt64Slice]
    | str s => simp [Redis.parseSlidingWindowResponse, Redis.parseRedisInt64Slice]
    | list l =>
      simp only [Redis.parseSlidingWindowResponse, Redis.parseRedisInt64Slice]
      rcases h : Redis.int64Elems 0 l with e | ints
      · constructor
        · rintro ⟨out, hout⟩; cases hout
        · rintro ⟨l2, hl2, -, hall⟩
          cases hl2
          rcases (Redis.int64Elems_ok_iff l 0).mpr hall with ⟨ints, hints⟩
          rw [h] at hints; cases hints
      · have hlen := Redis.int64Elems_length l 0 ints h
        dsimp only
        by_cases h2 : ints.length = 2
        · rw [if_pos h2]
          constructor
          · rintro -
            exact ⟨l, rfl, by rw [← hlen, h2], (Redis.int64Elems_ok_iff l 0).mp ⟨ints, h⟩⟩
          · rintro -
            exact ⟨_, rfl⟩
        · rw [if_neg h2]
          constructor
          · rintro ⟨out, hout⟩; cases hout
          · rintro ⟨l2, hl2, hlen2, -⟩
            cases hl2
            exact absurd (hlen.trans hlen2) h2

/-- C7. The local sliding-window constructor rejects a non-positive
capacity with ErrCapacity, then a non-positive duration with ErrDuration,
before any window state exists; with positive capacity and duration it
returns a limiter whose window is empty, and no error. -/
theorem c7_new_sliding_window_validation (capacity duration : Int) :
    (capacity ≤ 0 → Loc.NewSlidingWindow capacity duration = .error .ErrCapacity) ∧
    (0 < capacity → duration ≤ 0 →
      Loc.NewSlidingWindow capacity duration = .error .ErrDuration) ∧
    (0 < capacity → 0 < duration →
      Loc.NewSlidingWindow capacity duration = .ok ⟨capacity, duration, []⟩) := by
  refine ⟨fun hc => ?_, fun hc hd => ?_, fun hc hd => ?_⟩
  · simp [Loc.NewSlidingWindow, hc]
  · simp [Loc.NewSlidingWindow, not_le.mpr hc, hd]
  · simp [Loc.NewSlidingWindow, not_le.mpr hc, not_le.mpr hd]

/-- Witness for C7 at concrete inputs: capacity 0 is rejected, duration 0
is rejected, and positive arguments build an empty window. -/
theorem c7_witness :
    Loc.NewSlidingWindow 0 10 = .error .ErrCapacity ∧
    Loc.NewSlidingWindow 10 0 = .error .ErrDuration ∧
    Loc.NewSlidingWindow 10 5 = .ok ⟨10, 5, []⟩ :=
  ⟨(c7_new_sliding_window_validation 0 10).1 (by decide),
   (c7_new_sliding_window_validation 10 0).2.1 (by decide) (by decide),
   (c7_new_sliding_window_validation 10 5).2.2 (by decide) (by decide)⟩

namespace Redis

/-- The script result when the post-refill tokens cover the take amount:
success 1, exactly take subtracted, stored and replied consistently. -/
theorem leakyBucketScript_of_take_le (st : LeakyBucketState) (capacity : Int) (rate : ℚ)
    (now take : Int) (h : take ≤ (leakyBucketPostRefill st capacity rate now).1) :
    leakyBucketScript st capacity rate now take =
      (⟨some ((leakyBucketPostRefill st capacity rate now).1 - take),
        some (leakyBucketPostRefill st capacity rate now).2⟩,
       (1, (leakyBucketPostRefill st capacity rate now).1 - take,
        (leakyBucketPostRefill st capacity rate now).2)) := by
  simp only [leakyBucketScript, leakyBucketPostRefill] at h ⊢
  rw [if_pos h]

/-- The script result when the post-refill tokens do not cover the take
amount: success 0 and the refilled state is stored unchanged. -/
theorem leakyBucketScript_of_lt_take (st : LeakyBucketState) (capacity : Int) (rate : ℚ)
    (now take : Int) (h : (leakyBucketPostRefill st capacity rate now).1 < take) :
    leakyBucketScript st capacity rate now take =
      (⟨some (leakyBucketPostRefill st capacity rate now).1,
        some (leakyBucketPostRefill st capacity rate now).2⟩,
       (0, (leakyBucketPostRefill st capacity rate now).1,
        (leakyBucketPostRefill st capacity rate now).2)) := by
  simp only [leakyBucketScript, leakyBucketPostRefill] at h ⊢
  rw [if_neg (not_le.mpr h)]

/-- Parsing the triple the script replies with always succeeds. -/
theorem parse_reply_triple (a b c : Int) :
    parseLeakyBucketResponse (.list [.int a, .int b, .int c]) = .ok ⟨a == 1, b, c⟩ := rfl

/-- Use when the post-refill tokens cover the take amount. -/
theorem Use_of_take_le (st : LeakyBucketState) (capacity windowSeconds now take : Int)
    (h : take ≤ (leakyBucketPostRefill st capacity (getRefillRate capacity windowSeconds) now).1) :
    LeakyBucketImpl.Use st capacity windowSeconds now take =
      (⟨some ((leakyBucketPostRefill st capacity (getRefillRate capacity windowSeconds) now).1
          - take),
        some (leakyBucketPostRefill st capacity (getRefillRate capacity windowSeconds) now).2⟩,
       .ok ⟨true,
        (leakyBucketPostRefill st capacity (getRefillRate capacity windowSeconds) now).1 - take,
        calculateLeakyBucketFillTime
          (leakyBucketPostRefill st capacity (getRefillRate capacity windowSeconds) now).2
          ((leakyBucketPostRefill st capacity (getRefillRate capacity windowSeconds) now).1 - take)
          capacity windowSeconds⟩) := by
  simp only [LeakyBucketImpl.Use, leakyBucketScript_of_take_le st capacity
    (getRefillRate capacity windowSeconds) now take h, parse_reply_triple]
  rfl

/-- Use when the post-refill tokens do not cover the take amount. -/
theorem Use_of_lt_take (st : LeakyBucketState) (capacity windowSeconds now take : Int)
    (h : (leakyBucketPostRefill st capacity (getRefillRate capacity windowSeconds) now).1 < take) :
    LeakyBucketImpl.Use st capacity windowSeconds now take =
      (⟨some (leakyBucketPostRefill st capacity (getRefillRate capacity windowSeconds) now).1,
        some (leakyBucketPostRefill st capacity (getRefillRate capacity windowSeconds) now).2⟩,
       .ok ⟨false,
        (leakyBucketPostRefill st capacity (getRefillRate capacity windowSeconds) now).1,
        calculateLeakyBucketFillTime
          (leakyBucketPostRefill st capacity (getRefillRate capacity windowSeconds) now).2
          (leakyBucketPostRefill st capacity (getRefillRate capacity windowSeconds) now).1
          capacity windowSeconds⟩) := by
  simp only [LeakyBucketImpl.Use, leakyBucketScript_of_lt_take st capacity
    (getRefillRate capacity windowSeconds) now take h, parse_reply_triple]
  rfl

/-- The refill step never pushes tokens above capacity. -/
theorem leakyBucketRefill_le_capacity (capacity : Int) (rate : ℚ) (now tokens lastFilled : Int)
    (h : tokens ≤ capacity) :
    (leakyBucketRefill capacity rate now tokens lastFilled).1 ≤ capacity := by
  simp only [leakyBucketRefill]
  split
  · split
    · exact min_le_left _ _
    · exact h
  · exact h

/-- The refill step never pushes nonnegative tokens below zero. -/
theorem leakyBucketRefill_nonneg (capacity : Int) (rate : ℚ) (now tokens lastFilled : Int)
    (h0 : 0 ≤ tokens) (hc : 0 ≤ capacity) :
    0 ≤ (leakyBucketRefill capacity rate now tokens lastFilled).1 := by
  simp only [leakyBucketRefill]
  split
  · split
    · next hf => exact le_min hc (add_nonneg h0 hf.le)
    · exact h0
  · exact h0

/-- After clamping and refilling, tokens are at most the capacity. -/
theorem leakyBucketPostRefill_le (st : LeakyBucketState) (capacity : Int) (rate : ℚ)
    (now : Int) : (leakyBucketPostRefill st capacity rate now).1 ≤ capacity := by
  simp only [leakyBucketPostRefill]
  apply leakyBucketRefill_le_capacity
  split
  · exact le_refl _
  · next h => exact le_of_not_lt h

/-- After clamping and refilling, tokens stay nonnegative when the stored
count and the capacity are nonnegative. -/
theorem leakyBucketPostRefill_nonneg (st : LeakyBucketState) (capacity : Int) (rate : ℚ)
    (now : Int) (h0 : 0 ≤ st.tokens.getD 0) (hc : 0 ≤ capacity) :
    0 ≤ (leakyBucketPostRefill st capacity rate now).1 := by
  simp only [leakyBucketPostRefill]
  apply leakyBucketRefill_nonneg
  · split
    · exact hc
    · exact h0
  · exact hc

end Redis

namespace Loc

/-- unsafeFill on a full bucket is the identity. -/
theorem unsafeFill_of_full (r : leakyBucket) (now : Int) (h : r.max ≤ r.tokens) :
    r.unsafeFill now = some r := by
  simp [leakyBucket.unsafeFill, h]

/-- unsafeFill on a bucket below capacity with a nonzero rate always caps
the refilled tokens at max and always moves lastFill to now. -/
theorem unsafeFill_of_notfull (r : leakyBucket) (now : Int) (h : r.tokens < r.max)
    (hr : r.rate ≠ 0) :
    r.unsafeFill now =
      some { r with tokens := min (r.tokens + (now - r.lastFill).tdiv r.rate) r.max,
                    lastFill := now } := by
  simp [leakyBucket.unsafeFill, not_le.mpr h, hr]

end Loc

/-- C1 counterexample: a local bucket below capacity, one nanosecond after
its last fill with a rate of four nanoseconds per token, computes
tokensToFill = 0 yet unsafeFill still changes lastFill from 10 to 11,
contradicting the claim that the refill step leaves both fields unchanged
when tokensToFill = 0. -/
theorem c1_counterexample :
    ((⟨2, 1, 4, 10⟩ : Loc.leakyBucket).tokens < (⟨2, 1, 4, 10⟩ : Loc.leakyBucket).max) ∧
    (11 - (10 : Int)).tdiv 4 = 0 ∧
    Loc.leakyBucket.unsafeFill ⟨2, 1, 4, 10⟩ 11 = some ⟨2, 1, 4, 11⟩ ∧
    (⟨2, 1, 4, 11⟩ : Loc.leakyBucket).lastFill ≠ (⟨2, 1, 4, 10⟩ : Loc.leakyBucket).lastFill := by
  decide

/-- C1 (amended). The redis refill step behaves as the claim states: below
capacity it updates tokens to min(capacity, tokens + tokensToFill) and
lastFill to now exactly when tokensToFill > 0, and leaves both unchanged
when tokensToFill <= 0 (and also when the bucket is full). The local
unsafeFill differs: below capacity with a nonzero rate it always sets
lastFill to now, even when tokensToFill = 0, while capping tokens at max. -/
theorem c1_refill_step (capacity : Int) (rate : ℚ) (now tokens lastFilled : Int)
    (r : Loc.leakyBucket) (now2 : Int) :
    (tokens < capacity →
      (0 < ⌊((now - lastFilled : Int) : ℚ) * rate⌋ →
        Redis.leakyBucketRefill capacity rate now tokens lastFilled =
          (min capacity (tokens + ⌊((now - lastFilled : Int) : ℚ) * rate⌋), now)) ∧
      (⌊((now - lastFilled : Int) : ℚ) * rate⌋ ≤ 0 →
        Redis.leakyBucketRefill capacity rate now tokens lastFilled = (tokens, lastFilled))) ∧
    (capacity ≤ tokens →
      Redis.leakyBucketRefill capacity rate now tokens lastFilled = (tokens, lastFilled)) ∧
    (r.tokens < r.max → r.rate ≠ 0 →
      Loc.leakyBucket.unsafeFill r now2 =
        some { r with tokens := min (r.tokens + (now2 - r.lastFill).tdiv r.rate) r.max,
                      lastFill := now2 }) := by
  refine ⟨fun hlt => ⟨fun hpos => ?_, fun hz => ?_⟩, fun hge => ?_, fun h hr => ?_⟩
  · simp only [Redis.leakyBucketRefill]
    rw [if_pos hlt, if_pos hpos]
  · simp only [Redis.leakyBucketRefill]
    rw [if_pos hlt, if_neg (not_lt.mpr hz)]
  · simp only [Redis.leakyBucketRefill]
    rw [if_neg (not_lt.mpr hge)]
  · exact Loc.unsafeFill_of_notfull r now2 h hr

/-- Witness for C1 at concrete inputs: a positive-fill redis refill, a
zero-fill redis refill, and the local always-update fill. -/
theorem c1_witness :
    Redis.leakyBucketRefill 60 1 5 0 0 =
      (min 60 (0 + ⌊((5 - 0 : Int) : ℚ) * 1⌋), 5) ∧
    Redis.leakyBucketRefill 60 1 7 3 7 = (3, 7) ∧
    Loc.leakyBucket.unsafeFill ⟨2, 1, 4, 10⟩ 11 =
      some { (⟨2, 1, 4, 10⟩ : Loc.leakyBucket) with
             tokens := min (1 + (11 - (10 : Int)).tdiv 4) 2, lastFill := 11 } :=
  ⟨((c1_refill_step 60 1 5 0 0 ⟨2, 1, 4, 10⟩ 11).1 (by decide)).1 (by simp),
   ((c1_refill_step 60 1 7 3 7 ⟨2, 1, 4, 10⟩ 11).1 (by decide)).2 (by simp),
   (c1_refill_step 60 1 5 0 0 ⟨2, 1, 4, 10⟩ 11).2.2 (by decide) (by decide)⟩

/-- C2. Leaky-bucket takes are all-or-nothing. For the redis Use call (with
the post-refill token count p.1 and post-refill lastFill p.2): when
takeAmount <= p.1 the call succeeds and stores exactly p.1 - takeAmount;
otherwise it fails and stores p.1 unchanged; either way the call parses
without error. For the local bucket: when the fill step completes, a token
is subtracted exactly when at least one is available, and otherwise the
filled state is returned unchanged. -/
theorem c2_take_all_or_nothing :
    (∀ (st : Redis.LeakyBucketState) (capacity windowSeconds now take : Int),
      (take ≤ (Redis.leakyBucketPostRefill st capacity
          (Redis.getRefillRate capacity windowSeconds) now).1 →
        Redis.LeakyBucketImpl.Use st capacity windowSeconds now take =
          (⟨some ((Redis.leakyBucketPostRefill st capacity
              (Redis.getRefillRate capacity windowSeconds) now).1 - take),
            some (Redis.leakyBucketPostRefill st capacity
              (Redis.getRefillRate capacity windowSeconds) now).2⟩,
           .ok ⟨true,
            (Redis.leakyBucketPostRefill st capacity
              (Redis.getRefillRate capacity windowSeconds) now).1 - take,
            Redis.calculateLeakyBucketFillTime
              (Redis.leakyBucketPostRefill st capacity
                (Redis.getRefillRate capacity windowSeconds) now).2
              ((Redis.leakyBucketPostRefill st capacity
                (Redis.getRefillRate capacity windowSeconds) now).1 - take)
              capacity windowSeconds⟩)) ∧
      ((Redis.leakyBucketPostRefill st capacity
          (Redis.getRefillRate capacity windowSeconds) now).1 < take →
        Redis.LeakyBucketImpl.Use st capacity windowSeconds now take =
          (⟨some (Redis.leakyBucketPostRefill st capacity
              (Redis.getRefillRate capacity windowSeconds) now).1,
            some (Redis.leakyBucketPostRefill st capacity
              (Redis.getRefillRate capacity windowSeconds) now).2⟩,
           .ok ⟨false,
            (Redis.leakyBucketPostRefill st capacity
              (Redis.getRefillRate capacity windowSeconds) now).1,
            Redis.calculateLeakyBucketFillTime
              (Redis.leakyBucketPostRefill st capacity
                (Redis.getRefillRate capacity windowSeconds) now).2
              (Redis.leakyBucketPostRefill st capacity
                (Redis.getRefillRate capacity windowSeconds) now).1
              capacity windowSeconds⟩))) ∧
    (∀ (r r2 : Loc.leakyBucket) (now : Int),
      Loc.leakyBucket.unsafeFill r now = some r2 →
      (1 ≤ r2.tokens →
        Loc.leakyBucket.TryTakeWithDuration r now =
          some ({ r2 with tokens := r2.tokens - 1 }, true, 0)) ∧
      (r2.tokens < 1 →
        Loc.leakyBucket.TryTakeWithDuration r now =
          some (r2, false, (r2.lastFill + r2.rate) - now))) := by
  constructor
  · intro st capacity windowSeconds now take
    exact ⟨fun h => Redis.Use_of_take_le st capacity windowSeconds now take h,
           fun h => Redis.Use_of_lt_take st capacity windowSeconds now take h⟩
  · intro r r2 now hfill
    constructor
    · intro h1
      simp only [Loc.leakyBucket.TryTakeWithDuration, hfill]
      rw [if_neg (not_lt.mpr h1)]
    · intro h1
      simp only [Loc.leakyBucket.TryTakeWithDuration, hfill]
      rw [if_pos h1]

/-- Witness for C2 at concrete inputs: a full redis bucket at its own
last-fill instant grants a take of one, and a rejected redis take leaves
the refilled state stored unchanged; a full local bucket grants a take and
an empty one reports the next fill instant. -/
theorem c2_witness :
    Redis.LeakyBucketImpl.Use ⟨some 60, some 1000⟩ 60 60 1000 1 =
      (⟨some ((Redis.leakyBucketPostRefill ⟨some 60, some 1000⟩ 60
          (Redis.getRefillRate 60 60) 1000).1 - 1),
        some (Redis.leakyBucketPostRefill ⟨some 60, some 1000⟩ 60
          (Redis.getRefillRate 60 60) 1000).2⟩,
       .ok ⟨true,
        (Redis.leakyBucketPostRefill ⟨some 60, some 1000⟩ 60
          (Redis.getRefillRate 60 60) 1000).1 - 1,
        Redis.calculateLeakyBucketFillTime
          (Redis.leakyBucketPostRefill ⟨some 60, some 1000⟩ 60
            (Redis.getRefillRate 60 60) 1000).2
          ((Redis.leakyBucketPostRefill ⟨some 60, some 1000⟩ 60
            (Redis.getRefillRate 60 60) 1000).1 - 1)
          60 60⟩) ∧
    Loc.leakyBucket.TryTakeWithDuration ⟨10, 10, 5, 0⟩ 0 =
      some ({ (⟨10, 10, 5, 0⟩ : Loc.leakyBucket) with tokens := 10 - 1 }, true, 0) :=
  ⟨((c2_take_all_or_nothing.1 ⟨some 60, some 1000⟩ 60 60 1000 1).1 (by
      show (1 : Int) ≤ (Redis.leakyBucketPostRefill ⟨some 60, some 1000⟩ 60
        (Redis.getRefillRate 60 60) 1000).1
      have : (Redis.leakyBucketPostRefill ⟨some 60, some 1000⟩ 60
          (Redis.getRefillRate 60 60) 1000).1 = 60 := rfl
      rw [this]
      decide)),
   ((c2_take_all_or_nothing.2 ⟨10, 10, 5, 0⟩ ⟨10, 10, 5, 0⟩ 0 (by decide)).1 (by decide))⟩

namespace Redis

/-- calculateLeakyBucketFillTime returns lastFill alone when the tokens are
at capacity and otherwise adds min(windowSeconds, ceil(delta / rate)). -/
theorem calculateLeakyBucketFillTime_spec (lf tokens capacity w : Int)
    (h : tokens ≤ capacity) :
    (tokens = capacity → calculateLeakyBucketFillTime lf tokens capacity w = lf) ∧
    (tokens ≠ capacity → calculateLeakyBucketFillTime lf tokens capacity w =
      lf + min w ⌈((capacity - tokens : Int) : ℚ) / ((capacity : ℚ) / (w : ℚ))⌉) := by
  constructor
  · intro he
    simp only [calculateLeakyBucketFillTime, he, sub_self]
    rw [if_neg (lt_irrefl 0)]
  · intro hne
    have hd : 0 < capacity - tokens := sub_pos.mpr (lt_of_le_of_ne h (fun hh => hne hh))
    simp only [calculateLeakyBucketFillTime, getRefillRate]
    rw [if_pos hd]
    congr 1
    rcases lt_or_le ⌈((capacity - tokens : Int) : ℚ) / ((capacity : ℚ) / (w : ℚ))⌉ w with
      hlt | hge
    · rw [if_pos hlt, min_eq_right hlt.le]
    · rw [if_neg (not_lt.mpr hge), min_eq_left hge]

end Redis

/-- C3. Every redis leaky-bucket Use call with positive capacity and
window and a nonnegative take amount completes without error, and its
ResetAt equals the stored lastFill when the returned token count equals the
capacity, and otherwise equals lastFill plus
min(windowSeconds, ceil((capacity - tokens) / rate)) where rate is
capacity / windowSeconds. -/
theorem c3_resetAt_formula (st : Redis.LeakyBucketState)
    (capacity windowSeconds now take : Int)
    (hc : 0 < capacity) (hw : 0 < windowSeconds) (ht : 0 ≤ take) :
    ∃ resp lf,
      (Redis.LeakyBucketImpl.Use st capacity windowSeconds now take).2 = .ok resp ∧
      (Redis.LeakyBucketImpl.Use st capacity windowSeconds now take).1.lastFill = some lf ∧
      (resp.RemainingTokens = capacity → resp.ResetAt = lf) ∧
      (resp.RemainingTokens ≠ capacity →
        resp.ResetAt = lf + min windowSeconds
          ⌈((capacity - resp.RemainingTokens : Int) : ℚ) /
            ((capacity : ℚ) / (windowSeconds : ℚ))⌉) := by
  rcases le_or_lt take
      (Redis.leakyBucketPostRefill st capacity
        (Redis.getRefillRate capacity windowSeconds) now).1 with hle | hlt
  · rw [Redis.Use_of_take_le st capacity windowSeconds now take hle]
    have hcap : (Redis.leakyBucketPostRefill st capacity
        (Redis.getRefillRate capacity windowSeconds) now).1 - take ≤ capacity :=
      le_trans (sub_le_self _ ht)
        (Redis.leakyBucketPostRefill_le st capacity
          (Redis.getRefillRate capacity windowSeconds) now)
    refine ⟨_, _, rfl, rfl, ?_, ?_⟩
    · intro he
      exact (Redis.calculateLeakyBucketFillTime_spec _ _ capacity windowSeconds hcap).1 he
    · intro hne
      exact (Redis.calculateLeakyBucketFillTime_spec _ _ capacity windowSeconds hcap).2 hne
  · rw [Redis.Use_of_lt_take st capacity windowSeconds now take hlt]
    have hcap : (Redis.leakyBucketPostRefill st capacity
        (Redis.getRefillRate capacity windowSeconds) now).1 ≤ capacity :=
      Redis.leakyBucketPostRefill_le st capacity
        (Redis.getRefillRate capacity windowSeconds) now
    refine ⟨_, _, rfl, rfl, ?_, ?_⟩
    · intro he
      exact (Redis.calculateLeakyBucketFillTime_spec _ _ capacity windowSeconds hcap).1 he
    · intro hne
      exact (Redis.calculateLeakyBucketFillTime_spec _ _ capacity windowSeconds hcap).2 hne

/-- Witness for C3 at concrete inputs: a full bucket of capacity 60 and a
60 second window taking one token at its stored last-fill instant. -/
theorem c3_witness :
    ∃ resp lf,
      (Redis.LeakyBucketImpl.Use ⟨some 60, some 1000⟩ 60 60 1000 1).2 = .ok resp ∧
      (Redis.LeakyBucketImpl.Use ⟨some 60, some 1000⟩ 60 60 1000 1).1.lastFill = some lf ∧
      (resp.RemainingTokens = 60 → resp.ResetAt = lf) ∧
      (resp.RemainingTokens ≠ 60 →
        resp.ResetAt = lf + min 60
          ⌈((60 - resp.RemainingTokens : Int) : ℚ) / ((60 : ℚ) / (60 : ℚ))⌉) :=
  c3_resetAt_formula ⟨some 60, some 1000⟩ 60 60 1000 1 (by decide) (by decide) (by decide)

namespace Redis

/-- Parsing the pair the sliding-window script replies with always
succeeds. -/
theorem parse_reply_pair (a b : Int) :
    parseSlidingWindowResponse (.list [.int a, .int b]) = .ok ⟨a == 1, b⟩ := rfl

end Redis

namespace Loc

/-- On a sorted window, dropping the expired prefix removes exactly the
entries that are not after now. -/
theorem dropWhile_le_eq_filter (now : Int) (l : List Int) (hl : List.Sorted (· ≤ ·) l) :
    l.dropWhile (fun ts => decide (ts ≤ now)) = l.filter (fun ts => decide (now < ts)) := by
  induction l with
  | nil => rfl
  | cons a t ih =>
    rcases List.sorted_cons.mp hl with ⟨ha, ht⟩
    by_cases h : a ≤ now
    · rw [List.dropWhile_cons_of_pos (by simpa using h),
        List.filter_cons_of_neg (by simpa using not_lt.mpr h)]
      exact ih ht
    · rw [List.dropWhile_cons_of_neg (by simpa using h),
        List.filter_cons_of_pos (by simpa using not_le.mp h)]
      congr 1
      exact (List.filter_eq_self.mpr fun x hx => by
        simpa using lt_of_lt_of_le (not_le.mp h) (ha x hx)).symm

end Loc

/-- C4. Sliding-window Use first evicts every entry with expiry at most
now; with current survivors counted, if current < maxCapacity one entry
expiring at now + window is inserted and the call succeeds with the count
becoming current + 1, else the call fails and the count stays current; the
reported remaining capacity is max(0, maxCapacity - count). The local
TryTakeWithDuration does the same on its sorted window (eviction is a
prefix removal, which equals full eviction on a sorted window), reporting
the earliest expiry on failure. -/
theorem c4_sliding_window_semantics :
    (∀ (store : Finset Int) (maxCapacity window now : Int),
      (((store.filter (fun s => now < s)).card : Int) < maxCapacity →
        Redis.SlidingWindowImpl.Use store maxCapacity window now =
          (insert (now + window) (store.filter (fun s => now < s)),
           .ok ⟨true, max 0 (maxCapacity -
             (((store.filter (fun s => now < s)).card : Int) + 1))⟩)) ∧
      (maxCapacity ≤ ((store.filter (fun s => now < s)).card : Int) →
        Redis.SlidingWindowImpl.Use store maxCapacity window now =
          (store.filter (fun s => now < s),
           .ok ⟨false, max 0 (maxCapacity -
             ((store.filter (fun s => now < s)).card : Int))⟩))) ∧
    (∀ (r : Loc.slidingWindow) (now : Int),
      List.Sorted (· ≤ ·) r.window → 0 < r.capacity →
      (((r.window.filter (fun ts => decide (now < ts))).length : Int) < r.capacity →
        Loc.slidingWindow.TryTakeWithDuration r now =
          some (⟨r.capacity, r.duration,
            r.window.filter (fun ts => decide (now < ts)) ++ [now + r.duration]⟩, true, 0)) ∧
      (r.capacity ≤ ((r.window.filter (fun ts => decide (now < ts))).length : Int) →
        ∃ hd rest, r.window.filter (fun ts => decide (now < ts)) = hd :: rest ∧
          Loc.slidingWindow.TryTakeWithDuration r now =
            some (⟨r.capacity, r.duration,
              r.window.filter (fun ts => decide (now < ts))⟩, false, hd - now))) := by
  constructor
  · intro store maxCapacity window now
    constructor
    · intro hlt
      simp only [Redis.SlidingWindowImpl.Use, Redis.SlidingWindowImpl.UseScript]
      rw [if_pos hlt]
      simp only [Redis.parse_reply_pair]
      rfl
    · intro hge
      simp only [Redis.SlidingWindowImpl.Use, Redis.SlidingWindowImpl.UseScript]
      rw [if_neg (not_lt.mpr hge)]
      simp only [Redis.parse_reply_pair]
      rfl
  · intro r now hsorted hcap
    obtain ⟨capacity, duration, window⟩ := r
    have hclean : Loc.slidingWindow.clean ⟨capacity, duration, window⟩ now =
        ⟨capacity, duration, window.filter (fun ts => decide (now < ts))⟩ := by
      simp only [Loc.slidingWindow.clean]
      rw [Loc.dropWhile_le_eq_filter now window hsorted]
    constructor
    · intro hlt
      simp only [Loc.slidingWindow.TryTakeWithDuration, hclean]
      rw [if_neg (not_le.mpr hlt)]
    · intro hge
      rcases hwin : window.filter (fun ts => decide (now < ts)) with _ | ⟨hd, rest⟩
      · exfalso
        rw [hwin] at hge
        simp only [List.length_nil, Int.ofNat_zero, Nat.cast_zero] at hge
        exact absurd (lt_of_lt_of_le hcap hge) (lt_irrefl 0)
      · refine ⟨hd, rest, rfl, ?_⟩
        simp only [Loc.slidingWindow.TryTakeWithDuration, hclean, hwin]
        rw [if_pos (by rw [hwin] at hge; exact hge)]
        rfl

/-- Witness for C4 at concrete inputs: a redis window with one live entry
below capacity admits a new entry; a local window of capacity 2 holding one
expired and one live entry admits a new one after evicting the former. -/
theorem c4_witness :
    Redis.SlidingWindowImpl.Use {5} 2 10 3 =
      (insert (3 + 10) (Finset.filter (fun s => 3 < s) {5}),
       .ok ⟨true, max 0 (2 - (((Finset.filter (fun s => 3 < s) ({5} : Finset Int)).card : Int)
         + 1))⟩) ∧
    Loc.slidingWindow.TryTakeWithDuration ⟨2, 100, [4, 50]⟩ 10 =
      some (⟨2, 100, [4, 50].filter (fun ts => decide ((10 : Int) < ts)) ++ [10 + 100]⟩,
        true, 0) :=
  ⟨(c4_sliding_window_semantics.1 {5} 2 10 3).1 (by decide),
   (c4_sliding_window_semantics.2 ⟨2, 100, [4, 50]⟩ 10 (by decide) (by decide)).1 (by decide)⟩

namespace Redis

/-- One Use call parses successfully and keeps the stored and reported
token counts within the zero-to-capacity range, given a nonnegative stored
count, capacity and take amount. -/
theorem Use_bounds (st : LeakyBucketState) (capacity windowSeconds now take : Int)
    (hc : 0 ≤ capacity) (h0 : 0 ≤ st.tokens.getD 0) (ht : 0 ≤ take) :
    ∃ resp, (LeakyBucketImpl.Use st capacity windowSeconds now take).2 = .ok resp ∧
      0 ≤ resp.RemainingTokens ∧ resp.RemainingTokens ≤ capacity ∧
      (LeakyBucketImpl.Use st capacity windowSeconds now take).1.tokens =
        some resp.RemainingTokens := by
  rcases le_or_lt take
      (leakyBucketPostRefill st capacity (getRefillRate capacity windowSeconds) now).1 with
    hle | hlt
  · rw [Use_of_take_le st capacity windowSeconds now take hle]
    refine ⟨_, rfl, sub_nonneg.mpr hle, ?_, rfl⟩
    exact le_trans (sub_le_self _ ht)
      (leakyBucketPostRefill_le st capacity (getRefillRate capacity windowSeconds) now)
  · rw [Use_of_lt_take st capacity windowSeconds now take hlt]
    refine ⟨_, rfl, ?_, ?_, rfl⟩
    · exact leakyBucketPostRefill_nonneg st capacity (getRefillRate capacity windowSeconds)
        now h0 hc
    · exact leakyBucketPostRefill_le st capacity (getRefillRate capacity windowSeconds) now

/-- Folding Use calls with nonnegative take amounts keeps the stored token
count nonnegative. -/
theorem useAll_tokens_nonneg (capacity windowSeconds : Int) (hc : 0 ≤ capacity) :
    ∀ (calls : List (Int × Int)) (st : LeakyBucketState), 0 ≤ st.tokens.getD 0 →
      (∀ c ∈ calls, 0 ≤ c.2) →
      0 ≤ (LeakyBucketImpl.useAll capacity windowSeconds calls st).tokens.getD 0 := by
  intro calls
  induction calls with
  | nil => intro st h0 _; exact h0
  | cons c rest ih =>
    intro st h0 hall
    rcases Use_bounds st capacity windowSeconds c.1 c.2 hc h0
        (hall c (List.mem_cons_self c rest)) with ⟨resp, -, hr0, -, hst⟩
    simp only [LeakyBucketImpl.useAll]
    apply ih
    · rw [hst]
      exact hr0
    · intro d hd
      exact hall d (List.mem_cons_of_mem c hd)

end Redis

namespace Loc

/-- One local TryTake call at an instant not before the last fill keeps the
token count in range, preserves max and rate, and leaves lastFill at most
now. -/
theorem tryTake_bounds (r : leakyBucket) (now : Int) (hrate : 0 < r.rate)
    (h0 : 0 ≤ r.tokens) (h1 : r.tokens ≤ r.max) (hl : r.lastFill ≤ now) :
    ∃ r2 ok, r.TryTake now = some (r2, ok) ∧ 0 ≤ r2.tokens ∧ r2.tokens ≤ r2.max ∧
      r2.max = r.max ∧ r2.rate = r.rate ∧ r2.lastFill ≤ now := by
  obtain ⟨max, tokens, rate, lastFill⟩ := r
  simp only at hrate h0 h1 hl
  rcases le_or_lt max tokens with hfull | hnot
  · have hfill := unsafeFill_of_full ⟨max, tokens, rate, lastFill⟩ now hfull
    rcases lt_or_le tokens 1 with hlt | hge
    · refine ⟨⟨max, tokens, rate, lastFill⟩, false, ?_, h0, h1, rfl, rfl, hl⟩
      simp only [leakyBucket.TryTake, leakyBucket.TryTakeWithDuration, hfill]
      rw [if_pos hlt]
      rfl
    · refine ⟨⟨max, tokens - 1, rate, lastFill⟩, true, ?_, ?_, ?_, rfl, rfl, hl⟩
      · simp only [leakyBucket.TryTake, leakyBucket.TryTakeWithDuration, hfill]
        rw [if_neg (not_lt.mpr hge)]
        rfl
      · simpa using hge
      · exact le_trans (sub_le_self _ zero_le_one) h1
  · have hfill := unsafeFill_of_notfull ⟨max, tokens, rate, lastFill⟩ now hnot (ne_of_gt hrate)
    have httf : 0 ≤ (now - lastFill).tdiv rate :=
      Int.tdiv_nonneg (sub_nonneg.mpr hl) hrate.le
    have h02 : 0 ≤ min (tokens + (now - lastFill).tdiv rate) max :=
      le_min (add_nonneg h0 httf) (h0.trans h1)
    have h12 : min (tokens + (now - lastFill).tdiv rate) max ≤ max := min_le_right _ _
    rcases lt_or_le (min (tokens + (now - lastFill).tdiv rate) max) 1 with hlt | hge
    · refine ⟨⟨max, min (tokens + (now - lastFill).tdiv rate) max, rate, now⟩, false,
        ?_, h02, h12, rfl, rfl, le_refl _⟩
      simp only [leakyBucket.TryTake, leakyBucket.TryTakeWithDuration, hfill]
      rw [if_pos hlt]
      rfl
    · refine ⟨⟨max, min (tokens + (now - lastFill).tdiv rate) max - 1, rate, now⟩, true,
        ?_, ?_, ?_, rfl, rfl, le_refl _⟩
      · simp only [leakyBucket.TryTake, leakyBucket.TryTakeWithDuration, hfill]
        rw [if_neg (not_lt.mpr hge)]
        rfl
      · simpa using hge
      · exact le_trans (sub_le_self _ zero_le_one) h12

/-- A chain of nondecreasing instants stays a chain from any earlier
start. -/
theorem chain_le_of_le {c d : Int} (h : c ≤ d) (l : List Int)
    (hl : List.Chain (· ≤ ·) d l) : List.Chain (· ≤ ·) c l := by
  cases l with
  | nil => exact List.Chain.nil
  | cons b t =>
    rcases List.chain_cons.mp hl with ⟨hdb, ht⟩
    exact List.chain_cons.mpr ⟨h.trans hdb, ht⟩

/-- A sequence of TryTake calls at nondecreasing instants starting after
the last fill keeps the token count in range and never panics. -/
theorem takeSeq_bounds : ∀ (times : List Int) (r : leakyBucket), 0 < r.rate →
    0 ≤ r.tokens → r.tokens ≤ r.max → List.Chain (· ≤ ·) r.lastFill times →
    ∃ r2, leakyBucket.takeSeq times r = some r2 ∧ 0 ≤ r2.tokens ∧ r2.tokens ≤ r2.max := by
  intro times
  induction times with
  | nil => intro r _ h2 h3 _; exact ⟨r, rfl, h2, h3⟩
  | cons now rest ih =>
    intro r hrate h0 h1 hchain
    rcases List.chain_cons.mp hchain with ⟨hle, hrest⟩
    rcases tryTake_bounds r now hrate h0 h1 hle with
      ⟨r2, ok, hstep, h02, h12, hmax, hrateq, hlast⟩
    have hseq : leakyBucket.takeSeq (now :: rest) r = leakyBucket.takeSeq rest r2 := by
      simp only [leakyBucket.takeSeq, hstep]
    rw [hseq]
    exact ih r2 (hrateq ▸ hrate) h02 h12 (chain_le_of_le hlast rest hrest)

end Loc

/-- C5. Over any sequence of leaky-bucket calls the token count stays in
the zero-to-capacity range. Redis: starting from an absent key, after any
sequence of Use calls with nonnegative take amounts, the next Use call
parses successfully, reports RemainingTokens between 0 and capacity, and
stores exactly that count. Local: a bucket built by NewLeakyBucket with a
positive token count and a positive derived rate keeps its tokens between
0 and max across any nondecreasing sequence of TryTake instants. -/
theorem c5_leaky_bucket_token_bounds :
    (∀ (capacity windowSeconds : Int) (calls : List (Int × Int)) (now take : Int),
      0 ≤ capacity → (∀ c ∈ calls, 0 ≤ c.2) → 0 ≤ take →
      ∃ resp,
        (Redis.LeakyBucketImpl.Use
          (Redis.LeakyBucketImpl.useAll capacity windowSeconds calls ⟨none, none⟩)
          capacity windowSeconds now take).2 = .ok resp ∧
        0 ≤ resp.RemainingTokens ∧ resp.RemainingTokens ≤ capacity ∧
        (Redis.LeakyBucketImpl.Use
          (Redis.LeakyBucketImpl.useAll capacity windowSeconds calls ⟨none, none⟩)
          capacity windowSeconds now take).1.tokens = some resp.RemainingTokens) ∧
    (∀ (tokensPerWindow window t0 : Int) (r : Loc.leakyBucket) (times : List Int),
      0 < tokensPerWindow → Loc.NewLeakyBucket tokensPerWindow window t0 = some r →
      0 < r.rate → List.Chain (· ≤ ·) t0 times →
      ∃ r2, Loc.leakyBucket.takeSeq times r = some r2 ∧
        0 ≤ r2.tokens ∧ r2.tokens ≤ r2.max) := by
  constructor
  · intro capacity windowSeconds calls now take hc hall ht
    exact Redis.Use_bounds _ capacity windowSeconds now take hc
      (Redis.useAll_tokens_nonneg capacity windowSeconds hc calls ⟨none, none⟩ le_rfl hall) ht
  · intro tokensPerWindow window t0 r times hn hnew hrate hchain
    have hne : tokensPerWindow ≠ 0 := ne_of_gt hn
    rw [Loc.NewLeakyBucket, if_neg hne] at hnew
    cases hnew
    exact Loc.takeSeq_bounds times _ hrate (le_of_lt hn) le_rfl hchain

/-- Witness for C5 at concrete inputs: a redis bucket of capacity 60 after
one take, then taking once more; a local bucket of 10 tokens per 2 seconds
taken twice at its creation instant. -/
theorem c5_witness :
    (∃ resp,
      (Redis.LeakyBucketImpl.Use
        (Redis.LeakyBucketImpl.useAll 60 60 [(1000, 1)] ⟨none, none⟩) 60 60 1000 1).2 =
        .ok resp ∧
      0 ≤ resp.RemainingTokens ∧ resp.RemainingTokens ≤ 60 ∧
      (Redis.LeakyBucketImpl.Use
        (Redis.LeakyBucketImpl.useAll 60 60 [(1000, 1)] ⟨none, none⟩) 60 60 1000 1).1.tokens =
        some resp.RemainingTokens) ∧
    (∃ r2, Loc.leakyBucket.takeSeq [0, 0] ⟨10, 10, 200000000, 0⟩ = some r2 ∧
      0 ≤ r2.tokens ∧ r2.tokens ≤ r2.max) :=
  ⟨c5_leaky_bucket_token_bounds.1 60 60 [(1000, 1)] 1000 1 (by decide)
      (by intro c hc; simp at hc; rw [hc]; decide) (by decide),
   c5_leaky_bucket_token_bounds.2 10 2000000000 0 ⟨10, 10, 200000000, 0⟩ [0, 0]
      (by decide) (by decide) (by decide)
      (List.Chain.cons le_rfl (List.Chain.cons le_rfl List.Chain.nil))⟩

namespace Loc

/-- If the wait loop returns true, some attempt succeeded, and every
earlier attempt failed without the cancellation branch firing. -/
theorem wait_true_success (s c : Nat → Bool) :
    ∀ (fuel start : Nat), wait s c fuel start = some true →
      ∃ i, start ≤ i ∧ s i = true ∧
        ∀ j, start ≤ j → j < i → s j = false ∧ c j = false := by
  intro fuel
  induction fuel with
  | zero => intro start h; simp [wait] at h
  | succ n ih =>
    intro start h
    simp only [wait] at h
    by_cases hs : s start = true
    · exact ⟨start, le_rfl, hs,
        fun j hj1 hj2 => absurd (lt_of_le_of_lt hj1 hj2) (lt_irrefl _)⟩
    · rw [if_neg hs] at h
      by_cases hc : c start = true
      · rw [if_pos hc] at h
        simp at h
      · rw [if_neg hc] at h
        rcases ih (start + 1) h with ⟨i, hi1, hi2, hi3⟩
        refine ⟨i, le_trans (Nat.le_succ start) hi1, hi2, ?_⟩
        intro j hj1 hj2
        rcases Nat.eq_or_lt_of_le hj1 with heq | hj
        · rw [← heq]
          exact ⟨Bool.not_eq_true _ ▸ hs, Bool.not_eq_true _ ▸ hc⟩
        · exact hi3 j hj hj2

/-- If the cancellation branch fires at some attempt before any success,
the wait loop never returns true. -/
theorem wait_cancelled_not_true (s c : Nat → Bool) :
    ∀ (fuel start i : Nat), start ≤ i → c i = true →
      (∀ j, start ≤ j → j ≤ i → s j = false) →
      wait s c fuel start ≠ some true := by
  intro fuel
  induction fuel with
  | zero => intro start i _ _ _ h; simp [wait] at h
  | succ n ih =>
    intro start i hsi hc hall h
    simp only [wait] at h
    rw [if_neg (by simp [hall start le_rfl hsi])] at h
    by_cases hcs : c start = true
    · rw [if_pos hcs] at h
      simp at h
    · rw [if_neg hcs] at h
      have hne : start ≠ i := fun he => hcs (he ▸ hc)
      exact ih (start + 1) i (Nat.succ_le_of_lt (lt_of_le_of_ne hsi hne)) hc
        (fun j hj1 hj2 => hall j (le_trans (Nat.le_succ start) hj1) hj2) h

end Loc

/-- C8. The WaitFunc callback runs only when the retry loop ends in a
successful take: if the callback ran, some attempt succeeded with no
earlier success and no earlier cancellation; and if the context
cancellation fires at an attempt before any attempt has succeeded, the
callback never runs. -/
theorem c8_waitfunc_callback_only_on_success (s c : Nat → Bool) (fuel : Nat) :
    (Loc.WaitFunc.callbackRan s c fuel = true →
      ∃ i, s i = true ∧ ∀ j, j < i → s j = false ∧ c j = false) ∧
    (∀ i, c i = true → (∀ j, j ≤ i → s j = false) →
      Loc.WaitFunc.callbackRan s c fuel = false) := by
  constructor
  · intro h
    have hw : Loc.wait s c fuel 0 = some true := by
      unfold Loc.WaitFunc.callbackRan at h
      rcases hww : Loc.wait s c fuel 0 with _ | b
      · rw [hww] at h; cases h
      · cases b
        · rw [hww] at h; cases h
        · rfl
    rcases Loc.wait_true_success s c fuel 0 hw with ⟨i, -, hi2, hi3⟩
    exact ⟨i, hi2, fun j hj => hi3 j (Nat.zero_le j) hj⟩
  · intro i hc hall
    have hne : Loc.wait s c fuel 0 ≠ some true :=
      Loc.wait_cancelled_not_true s c fuel 0 i (Nat.zero_le i) hc
        (fun j _ hj2 => hall j hj2)
    unfold Loc.WaitFunc.callbackRan
    rcases hww : Loc.wait s c fuel 0 with _ | b
    · rfl
    · cases b
      · rfl
      · exact absurd hww hne

/-- Witness for C8 at concrete inputs: a run whose third attempt succeeds
has its callback run after two clean failures, and a run cancelled at the
second attempt with no successful attempt never runs its callback. -/
theorem c8_witness :
    (∃ i, (fun k => decide (k = 2)) i = true ∧
      ∀ j, j < i → (fun k => decide (k = 2)) j = false ∧ (fun _ : Nat => false) j = false) ∧
    Loc.WaitFunc.callbackRan (fun _ => false) (fun k => decide (k = 1)) 5 = false :=
  ⟨(c8_waitfunc_callback_only_on_success (fun k => decide (k = 2)) (fun _ => false) 5).1
      (by decide),
   (c8_waitfunc_callback_only_on_success (fun _ => false) (fun k => decide (k = 1)) 5).2
      1 (by decide) (fun j _ => rfl)⟩

/-- C9 counterexample: with tokensPerWindow = 2 and a window of one
nanosecond (both positive), the derived rate is zero, so while the bucket
does start full, the second TryTake panics on a division by zero instead
of succeeding; the first two TryTake calls do not all succeed. -/
theorem c9_counterexample :
    Loc.NewLeakyBucket 2 1 0 = some ⟨2, 2, 0, 0⟩ ∧
    Loc.leakyBucket.TryTake ⟨2, 2, 0, 0⟩ 0 = some (⟨2, 1, 0, 0⟩, true) ∧
    Loc.leakyBucket.TryTake ⟨2, 1, 0, 0⟩ 0 = none ∧
    Loc.leakyBucket.tryTakeAll 0 2 ⟨2, 2, 0, 0⟩ = none := by decide

namespace Loc

/-- Repeated TryTake at the fill instant drains one token per call as long
as enough tokens are held. -/
theorem tryTakeAll_run (now : Int) :
    ∀ (k : Nat) (r : leakyBucket), 0 < r.rate → r.lastFill = now →
      (k : Int) ≤ r.tokens → r.tokens ≤ r.max →
      ∃ rEnd, leakyBucket.tryTakeAll now k r = some (rEnd, true) ∧
        rEnd.tokens = r.tokens - k := by
  intro k
  induction k with
  | zero => intro r _ _ _ _; exact ⟨r, rfl, by simp⟩
  | succ n ih =>
    intro r hrate hlast hk h1
    obtain ⟨max, tokens, rate, lastFill⟩ := r
    simp only at hrate hlast hk h1
    subst hlast
    have h1le : (1 : Int) ≤ tokens :=
      le_trans (by exact_mod_cast Nat.succ_le_succ (Nat.zero_le n)) hk
    have hstep : leakyBucket.TryTake ⟨max, tokens, rate, lastFill⟩ lastFill =
        some (⟨max, tokens - 1, rate, lastFill⟩, true) := by
      rcases le_or_lt max tokens with hfull | hnot
      · have hfill := unsafeFill_of_full ⟨max, tokens, rate, lastFill⟩ lastFill hfull
        simp only [leakyBucket.TryTake, leakyBucket.TryTakeWithDuration, hfill]
        rw [if_neg (not_lt.mpr h1le)]
        rfl
      · have hfill := unsafeFill_of_notfull ⟨max, tokens, rate, lastFill⟩ lastFill hnot
          (ne_of_gt hrate)
        have hz : (lastFill - lastFill).tdiv rate = 0 := by
          rw [sub_self]
          exact Int.zero_tdiv rate
        simp only at hfill
        rw [hz] at hfill
        have hmin : min (tokens + 0) max = tokens := by
          rw [add_zero]
          exact min_eq_left h1
        rw [hmin] at hfill
        simp only [leakyBucket.TryTake, leakyBucket.TryTakeWithDuration, hfill]
        rw [if_neg (not_lt.mpr h1le)]
        rfl
    have hrec := ih ⟨max, tokens - 1, rate, lastFill⟩ hrate rfl
      (by
        simp only
        have : ((n : Int)) + 1 ≤ tokens := by exact_mod_cast hk
        linarith)
      (by
        simp only
        exact le_trans (sub_le_self _ zero_le_one) h1)
    rcases hrec with ⟨rEnd, hEnd, htok⟩
    refine ⟨rEnd, ?_, ?_⟩
    · simp only [leakyBucket.tryTakeAll, hstep, hEnd]
      rfl
    · rw [htok]
      simp only
      push_cast
      ring

end Loc

/-- C9 (amended). A bucket built by NewLeakyBucket with tokensPerWindow > 0
starts full: Size at the creation instant reports tokensPerWindow, and,
provided the derived token rate is nonzero (the window is at least
tokensPerWindow nanoseconds), the first tokensPerWindow TryTake calls at
that same instant all succeed, leaving zero tokens. -/
theorem c9_bucket_starts_full (tokensPerWindow window t0 : Int) (r : Loc.leakyBucket)
    (hn : 0 < tokensPerWindow) (hnew : Loc.NewLeakyBucket tokensPerWindow window t0 = some r)
    (hrate : 0 < r.rate) :
    Loc.leakyBucket.Size r t0 = some (r, tokensPerWindow) ∧
    ∃ rEnd, Loc.leakyBucket.tryTakeAll t0 tokensPerWindow.toNat r = some (rEnd, true) ∧
      rEnd.tokens = 0 := by
  rw [Loc.NewLeakyBucket, if_neg (ne_of_gt hn)] at hnew
  cases hnew
  constructor
  · have hfill := Loc.unsafeFill_of_full
      ⟨tokensPerWindow, tokensPerWindow, window.tdiv tokensPerWindow, t0⟩ t0 le_rfl
    simp only [Loc.leakyBucket.Size, hfill]
    rfl
  · rcases Loc.tryTakeAll_run t0 tokensPerWindow.toNat
        ⟨tokensPerWindow, tokensPerWindow, window.tdiv tokensPerWindow, t0⟩ hrate rfl
        (by simp only; rw [Int.toNat_of_nonneg hn.le]) le_rfl with ⟨rEnd, hEnd, htok⟩
    refine ⟨rEnd, hEnd, ?_⟩
    rw [htok]
    simp only
    rw [Int.toNat_of_nonneg hn.le]
    exact sub_self tokensPerWindow

/-- Witness for C9 at concrete inputs: 2 tokens per 2 nanoseconds starts
with Size 2 and drains to zero in two takes at the creation instant. -/
theorem c9_witness :
    Loc.leakyBucket.Size ⟨2, 2, 1, 0⟩ 0 = some (⟨2, 2, 1, 0⟩, 2) ∧
    ∃ rEnd, Loc.leakyBucket.tryTakeAll 0 (Int.toNat 2) ⟨2, 2, 1, 0⟩ = some (rEnd, true) ∧
      rEnd.tokens = 0 :=
  c9_bucket_starts_full 2 2 0 ⟨2, 2, 1, 0⟩ (by decide) (by decide) (by decide)

/-- C10. NewLeakyBucket performs no validation: tokensPerWindow = 0 makes
the constructor itself divide by zero and panic; 0 <= window <
tokensPerWindow yields a token rate of 0, and then every
TryTake / TryTakeWithDuration / Size call on a non-full bucket reaches the
refill division by zero and panics; no error value is ever returned. -/
theorem c10_no_validation_division_panics :
    (∀ window t0 : Int, Loc.NewLeakyBucket 0 window t0 = none) ∧
    (∀ (n window t0 : Int) (r : Loc.leakyBucket), 0 ≤ window → window < n →
      Loc.NewLeakyBucket n window t0 = some r → r.rate = 0) ∧
    (∀ (r : Loc.leakyBucket) (now : Int), r.rate = 0 → r.tokens < r.max →
      Loc.leakyBucket.unsafeFill r now = none ∧
      Loc.leakyBucket.TryTakeWithDuration r now = none ∧
      Loc.leakyBucket.TryTake r now = none ∧
      Loc.leakyBucket.Size r now = none) := by
  refine ⟨fun window t0 => ?_, fun n window t0 r hw hwn hnew => ?_, fun r now hrate hfull => ?_⟩
  · rw [Loc.NewLeakyBucket, if_pos rfl]
  · have hn : n ≠ 0 := by
      intro h
      rw [h] at hwn
      exact absurd (lt_of_le_of_lt hw hwn) (lt_irrefl 0)
    rw [Loc.NewLeakyBucket, if_neg hn] at hnew
    cases hnew
    exact Int.tdiv_eq_zero_of_lt hw hwn
  · have hfill : Loc.leakyBucket.unsafeFill r now = none := by
      simp only [Loc.leakyBucket.unsafeFill]
      rw [if_neg (not_le.mpr hfull), if_pos hrate]
    refine ⟨hfill, ?_, ?_, ?_⟩
    · simp only [Loc.leakyBucket.TryTakeWithDuration, hfill]
    · simp only [Loc.leakyBucket.TryTake, Loc.leakyBucket.TryTakeWithDuration, hfill]
      rfl
    · simp only [Loc.leakyBucket.Size, hfill]
      rfl

/-- Witness for C10 at concrete inputs: construction with zero tokens per
window panics; 2 tokens per a 1 nanosecond window gives rate 0; a non-full
rate-0 bucket panics in all three refilling operations. -/
theorem c10_witness :
    Loc.NewLeakyBucket 0 5 0 = none ∧
    (⟨2, 2, 0, 0⟩ : Loc.leakyBucket).rate = 0 ∧
    (Loc.leakyBucket.unsafeFill ⟨2, 1, 0, 0⟩ 0 = none ∧
      Loc.leakyBucket.TryTakeWithDuration ⟨2, 1, 0, 0⟩ 0 = none ∧
      Loc.leakyBucket.TryTake ⟨2, 1, 0, 0⟩ 0 = none ∧
      Loc.leakyBucket.Size ⟨2, 1, 0, 0⟩ 0 = none) :=
  ⟨c10_no_validation_division_panics.1 5 0,
   c10_no_validation_division_panics.2.1 2 1 0 ⟨2, 2, 0, 0⟩ (by decide) (by decide) (by decide),
   c10_no_validation_division_panics.2.2 ⟨2, 1, 0, 0⟩ 0 (by decide) (by decide)⟩
